import Mathlib

/- Shallow embedding of the SQP nonlinear-programming solver implemented in
casadi/solvers/sqpmethod.cpp (class casadi::Sqpmethod).

Modelling conventions:
- IEEE double arithmetic of the source is modelled over the rationals ℚ.
- A vector of length n (std::vector of double) is a function Fin n → ℚ;
  the sequential index loops of the source become folds over List.finRange n
  in source order, or Finset sums where the loop only accumulates a sum.
- Fallible evaluator calls (eval_f / eval_g, which may throw a
  CasadiException) are modelled by Option-valued oracles; a division whose
  denominator is exactly zero produces a non-finite IEEE value in the
  source, which is modelled as the Option.none fault value. -/

namespace Sqpmethod

/-- Infinity norm of a vector (casadi norm_inf over a std::vector of
doubles): running maximum of absolute values starting from 0, as used for
the QP dual norms in sqpmethod.cpp lines 444-445. -/
def norm_inf (v : List ℚ) : ℚ := v.foldl (fun a x => max a |x|) 0

/-- Penalty-parameter update of sqpmethod.cpp lines 443-445:
sigma_ = max(sigma_, 1.01*norm_inf(qp_DUAL_X_)) followed by
sigma_ = max(sigma_, 1.01*norm_inf(qp_DUAL_A_)).  1.01 is 101/100. -/
def updateSigma (sigma : ℚ) (dualX dualA : List ℚ) : ℚ :=
  max (max sigma (101 / 100 * norm_inf dualX)) (101 / 100 * norm_inf dualA)

/-- Merit-history update of sqpmethod.cpp lines 455-459:
merit_mem_.push_back(L1merit); if (merit_mem_.size() > merit_memsize_)
merit_mem_.pop_front().  The std::deque is modelled as a list whose head is
the oldest entry. -/
def pushMerit (mem : List ℚ) (v : ℚ) (memsize : ℕ) : List ℚ :=
  if memsize < (mem ++ [v]).length then (mem ++ [v]).tail else mem ++ [v]

/-- Maximum element of the merit memory, sqpmethod.cpp line 497:
*max_element(merit_mem_.begin(), merit_mem_.end()).  On an empty deque the
C++ call dereferences the end iterator (undefined); the model returns the
arbitrary value 0 in that case, and the non-emptiness question is settled
separately on pushMerit. -/
def listMax : List ℚ → ℚ
  | [] => 0
  | a :: l => l.foldl max a

/-- Terminal statuses produced by the convergence checks of
Sqpmethod::evalD, named after the return_status strings written at
sqpmethod.cpp lines 404, 411 and 419. -/
inductive RetStatus where
  | solveSucceeded
  | maxIterationsExceeded
  | searchDirectionTooSmall
deriving DecidableEq

/-- Convergence checks of Sqpmethod::evalD, sqpmethod.cpp lines 399-421,
in source order: first pr_inf < tol_pr_ && gLag_norminf < tol_du_ (line
400), then iter >= max_iter_ (line 408), then iter > 0 && dx_norminf <=
min_step_size_ (line 415); none matching means the loop continues. -/
def checkConvergence (tolPr tolDu : ℚ) (maxIter : ℕ) (minStepSize : ℚ)
    (prInf duInf dxNorminf : ℚ) (iter : ℕ) : Option RetStatus :=
  if prInf < tolPr ∧ duInf < tolDu then some RetStatus.solveSucceeded
  else if maxIter ≤ iter then some RetStatus.maxIterationsExceeded
  else if 0 < iter ∧ dxNorminf ≤ minStepSize then some RetStatus.searchDirectionTooSmall
  else none

/-- One accumulation pass of Sqpmethod::primalInfeasibility (sqpmethod.cpp
lines 986-996): for each index j the running value is folded with
max (lo j - mid j) and max (mid j - hi j), exactly the two max updates of
the source loop body. -/
def violFold {n : ℕ} (lo mid hi : Fin n → ℚ) (init : ℚ) : ℚ :=
  (List.finRange n).foldl (fun pr j => max (max pr (lo j - mid j)) (mid j - hi j)) init

/-- Sqpmethod::primalInfeasibility, sqpmethod.cpp lines 977-999: starting
from 0, fold the bound violations lbx-x and x-ubx, then the constraint
violations lbg-g and g-ubg. -/
def primalInfeasibility {nx ng : ℕ} (x lbx ubx : Fin nx → ℚ)
    (g lbg ubg : Fin ng → ℚ) : ℚ :=
  violFold lbg g ubg (violFold lbx x ubx 0)

/- Generic facts about the max-accumulating fold that implements
primalInfeasibility. -/

lemma violAux_init_le {ι : Type} (f g : ι → ℚ) (l : List ι) (init : ℚ) :
    init ≤ l.foldl (fun pr j => max (max pr (f j)) (g j)) init := by
  induction l generalizing init with
  | nil => exact le_refl init
  | cons a l ih =>
    simp only [List.foldl_cons]
    exact le_trans (le_trans (le_max_left init (f a)) (le_max_left _ (g a))) (ih _)

lemma violAux_le_of_mem {ι : Type} (f g : ι → ℚ) (l : List ι) (init : ℚ)
    (j : ι) (hj : j ∈ l) :
    f j ≤ l.foldl (fun pr j => max (max pr (f j)) (g j)) init ∧
      g j ≤ l.foldl (fun pr j => max (max pr (f j)) (g j)) init := by
  induction l generalizing init with
  | nil => cases hj
  | cons a l ih =>
    simp only [List.foldl_cons]
    rcases List.mem_cons.mp hj with h | h
    · subst h
      constructor
      · exact le_trans (le_trans (le_max_right init (f j)) (le_max_left _ (g j)))
          (violAux_init_le f g l _)
      · exact le_trans (le_max_right _ (g j)) (violAux_init_le f g l _)
    · exact ih _ h

lemma violAux_attained {ι : Type} (f g : ι → ℚ) (l : List ι) (init : ℚ) :
    l.foldl (fun pr j => max (max pr (f j)) (g j)) init = init ∨
      ∃ j ∈ l, l.foldl (fun pr j => max (max pr (f j)) (g j)) init = f j ∨
        l.foldl (fun pr j => max (max pr (f j)) (g j)) init = g j := by
  induction l generalizing init with
  | nil => exact Or.inl rfl
  | cons a l ih =>
    simp only [List.foldl_cons]
    rcases ih (max (max init (f a)) (g a)) with h | ⟨j, hj, hfg⟩
    · rcases max_choice (max init (f a)) (g a) with h2 | h2
      · rcases max_choice init (f a) with h3 | h3
        · exact Or.inl (h.trans (h2.trans h3))
        · exact Or.inr ⟨a, List.mem_cons_self a l, Or.inl (h.trans (h2.trans h3))⟩
      · exact Or.inr ⟨a, List.mem_cons_self a l, Or.inr (h.trans h2)⟩
    · exact Or.inr ⟨j, List.mem_cons_of_mem a hj, hfg⟩

lemma violFold_init_le {n : ℕ} (lo mid hi : Fin n → ℚ) (init : ℚ) :
    init ≤ violFold lo mid hi init :=
  violAux_init_le (fun j => lo j - mid j) (fun j => mid j - hi j) (List.finRange n) init

lemma violFold_le_of_mem {n : ℕ} (lo mid hi : Fin n → ℚ) (init : ℚ) (j : Fin n) :
    lo j - mid j ≤ violFold lo mid hi init ∧ mid j - hi j ≤ violFold lo mid hi init :=
  violAux_le_of_mem (fun j => lo j - mid j) (fun j => mid j - hi j) (List.finRange n) init j
    (List.mem_finRange j)

lemma violFold_attained {n : ℕ} (lo mid hi : Fin n → ℚ) (init : ℚ) :
    violFold lo mid hi init = init ∨
      ∃ j, violFold lo mid hi init = lo j - mid j ∨ violFold lo mid hi init = mid j - hi j := by
  rcases violAux_attained (fun j => lo j - mid j) (fun j => mid j - hi j)
      (List.finRange n) init with h | ⟨j, _, h⟩
  · exact Or.inl h
  · exact Or.inr ⟨j, h⟩

/-- Claim C3: the convergence checks of Sqpmethod::evalD are evaluated in
the order Converged, then MaxIterationsExceeded, then StepTooSmall; in
particular a state meeting both the convergence tolerances and the
max-iteration bound terminates with Converged, never
MaxIterationsExceeded. -/
theorem convergence_check_precedence (tolPr tolDu : ℚ) (maxIter : ℕ) (minStepSize : ℚ)
    (prInf duInf dxNorminf : ℚ) (iter : ℕ) :
    (prInf < tolPr ∧ duInf < tolDu →
      checkConvergence tolPr tolDu maxIter minStepSize prInf duInf dxNorminf iter =
        some RetStatus.solveSucceeded) ∧
    (¬(prInf < tolPr ∧ duInf < tolDu) → maxIter ≤ iter →
      checkConvergence tolPr tolDu maxIter minStepSize prInf duInf dxNorminf iter =
        some RetStatus.maxIterationsExceeded) ∧
    (¬(prInf < tolPr ∧ duInf < tolDu) → iter < maxIter → 0 < iter →
      dxNorminf ≤ minStepSize →
      checkConvergence tolPr tolDu maxIter minStepSize prInf duInf dxNorminf iter =
        some RetStatus.searchDirectionTooSmall) ∧
    (¬(prInf < tolPr ∧ duInf < tolDu) → iter < maxIter →
      ¬(0 < iter ∧ dxNorminf ≤ minStepSize) →
      checkConvergence tolPr tolDu maxIter minStepSize prInf duInf dxNorminf iter = none) ∧
    (prInf < tolPr → duInf < tolDu → maxIter ≤ iter →
      checkConvergence tolPr tolDu maxIter minStepSize prInf duInf dxNorminf iter =
        some RetStatus.solveSucceeded) := by
  refine ⟨?_, ?_, ?_, ?_, ?_⟩
  · intro h
    simp [checkConvergence, h]
  · intro h hle
    simp [checkConvergence, h, hle]
  · intro h hlt h0 hds
    simp [checkConvergence, h, not_le.mpr hlt, h0, hds]
  · intro h hlt hn
    simp [checkConvergence, h, not_le.mpr hlt, hn]
  · intro h1 h2 _
    simp [checkConvergence, h1, h2]

/-- Witness for convergence_check_precedence: with tolerances 1, max_iter 0
and a zero-infeasibility state at iteration 0, both the tolerance test and
the iteration bound hold and the status is Converged. -/
theorem convergence_check_precedence_witness :
    checkConvergence 1 1 0 0 0 0 1 0 = some RetStatus.solveSucceeded :=
  (convergence_check_precedence 1 1 0 0 0 0 1 0).2.2.2.2 (by norm_num) (by norm_num)
    (Nat.le_refl 0)

/-- Claim C5: after the combined push-then-evict update of the merit
history, the history holds at most merit_memsize entries, and when the
capacity is exceeded the evicted entry is the front (oldest) one, so the
history is a bounded FIFO. -/
theorem merit_history_bounded_fifo (mem : List ℚ) (v : ℚ) (memsize : ℕ) :
    (mem.length ≤ memsize → (pushMerit mem v memsize).length ≤ memsize) ∧
    (memsize < (mem ++ [v]).length → pushMerit mem v memsize = (mem ++ [v]).tail) ∧
    (mem ≠ [] → memsize < (mem ++ [v]).length →
      pushMerit mem v memsize = mem.tail ++ [v]) := by
  have hlen : (mem ++ [v]).length = mem.length + 1 := by simp
  refine ⟨?_, ?_, ?_⟩
  · intro h
    unfold pushMerit
    by_cases hc : memsize < (mem ++ [v]).length
    · rw [if_pos hc, List.length_tail, hlen]
      omega
    · rw [if_neg hc]
      omega
  · intro hc
    unfold pushMerit
    rw [if_pos hc]
  · intro hne hc
    unfold pushMerit
    rw [if_pos hc]
    cases mem with
    | nil => exact absurd rfl hne
    | cons a l => simp

/-- Witness for merit_history_bounded_fifo: pushing 3 onto the full
two-element history [1, 2] with capacity 2 evicts the oldest entry and
yields [2, 3], still within capacity. -/
theorem merit_history_bounded_fifo_witness :
    pushMerit [1, 2] 3 2 = [2, 3] ∧ (pushMerit [1, 2] 3 2).length ≤ 2 := by
  have h := merit_history_bounded_fifo [1, 2] 3 2
  refine ⟨?_, h.1 (by simp)⟩
  have h3 := h.2.2 (by simp) (by simp)
  simpa using h3

/-- Claim C6: the penalty weight update of sqpmethod.cpp lines 443-445
never decreases sigma, for any pair of QP dual vectors. -/
theorem sigma_nondecreasing (sigma : ℚ) (dualX dualA : List ℚ) :
    sigma ≤ updateSigma sigma dualX dualA := by
  unfold updateSigma
  exact le_trans (le_max_left sigma _) (le_max_left _ _)

/-- Witness for sigma_nondecreasing at a concrete state: sigma 2 with
duals [3, -5] and [1] does not decrease. -/
theorem sigma_nondecreasing_witness : (2 : ℚ) ≤ updateSigma 2 [3, -5] [1] :=
  sigma_nondecreasing 2 [3, -5] [1]

/-- Claim C8: Sqpmethod::primalInfeasibility computes exactly
max(0, max_j(lbx_j - x_j, x_j - ubx_j), max_j(lbg_j - g_j, g_j - ubg_j)):
it is at least 0 and at least every violation term, it is attained at 0 or
at one of the terms, and it is zero exactly when every bound and
constraint is satisfied. -/
theorem primal_infeasibility_characterization {nx ng : ℕ}
    (x lbx ubx : Fin nx → ℚ) (g lbg ubg : Fin ng → ℚ) :
    0 ≤ primalInfeasibility x lbx ubx g lbg ubg ∧
    (∀ j, lbx j - x j ≤ primalInfeasibility x lbx ubx g lbg ubg ∧
      x j - ubx j ≤ primalInfeasibility x lbx ubx g lbg ubg) ∧
    (∀ j, lbg j - g j ≤ primalInfeasibility x lbx ubx g lbg ubg ∧
      g j - ubg j ≤ primalInfeasibility x lbx ubx g lbg ubg) ∧
    (primalInfeasibility x lbx ubx g lbg ubg = 0 ∨
      (∃ j, primalInfeasibility x lbx ubx g lbg ubg = lbx j - x j ∨
        primalInfeasibility x lbx ubx g lbg ubg = x j - ubx j) ∨
      (∃ j, primalInfeasibility x lbx ubx g lbg ubg = lbg j - g j ∨
        primalInfeasibility x lbx ubx g lbg ubg = g j - ubg j)) ∧
    (primalInfeasibility x lbx ubx g lbg ubg = 0 ↔
      (∀ j, lbx j ≤ x j ∧ x j ≤ ubx j) ∧ ∀ j, lbg j ≤ g j ∧ g j ≤ ubg j) := by
  have hinner0 : (0 : ℚ) ≤ violFold lbx x ubx 0 := violFold_init_le lbx x ubx 0
  have hinner_le : violFold lbx x ubx 0 ≤ primalInfeasibility x lbx ubx g lbg ubg :=
    violFold_init_le lbg g ubg _
  have h0 : (0 : ℚ) ≤ primalInfeasibility x lbx ubx g lbg ubg := le_trans hinner0 hinner_le
  have hxle : ∀ j, lbx j - x j ≤ primalInfeasibility x lbx ubx g lbg ubg ∧
      x j - ubx j ≤ primalInfeasibility x lbx ubx g lbg ubg := by
    intro j
    have h := violFold_le_of_mem lbx x ubx 0 j
    exact ⟨le_trans h.1 hinner_le, le_trans h.2 hinner_le⟩
  have hgle : ∀ j, lbg j - g j ≤ primalInfeasibility x lbx ubx g lbg ubg ∧
      g j - ubg j ≤ primalInfeasibility x lbx ubx g lbg ubg := by
    intro j
    exact violFold_le_of_mem lbg g ubg _ j
  have hatt : primalInfeasibility x lbx ubx g lbg ubg = 0 ∨
      (∃ j, primalInfeasibility x lbx ubx g lbg ubg = lbx j - x j ∨
        primalInfeasibility x lbx ubx g lbg ubg = x j - ubx j) ∨
      (∃ j, primalInfeasibility x lbx ubx g lbg ubg = lbg j - g j ∨
        primalInfeasibility x lbx ubx g lbg ubg = g j - ubg j) := by
    rcases violFold_attained lbg g ubg (violFold lbx x ubx 0) with h | ⟨j, h⟩
    · rcases violFold_attained lbx x ubx 0 with h2 | ⟨j, h2⟩
      · exact Or.inl (h.trans h2)
      · exact Or.inr (Or.inl ⟨j, by
          rcases h2 with h2 | h2
          · exact Or.inl (h.trans h2)
          · exact Or.inr (h.trans h2)⟩)
    · exact Or.inr (Or.inr ⟨j, h⟩)
  refine ⟨h0, hxle, hgle, hatt, ?_, ?_⟩
  · intro hz
    constructor
    · intro j
      have h := hxle j
      rw [hz] at h
      exact ⟨sub_nonneg.mp (by linarith [h.1]), sub_nonneg.mp (by linarith [h.2])⟩
    · intro j
      have h := hgle j
      rw [hz] at h
      exact ⟨sub_nonneg.mp (by linarith [h.1]), sub_nonneg.mp (by linarith [h.2])⟩
  · intro ⟨hfx, hfg⟩
    refine le_antisymm ?_ h0
    rcases hatt with h | ⟨j, h⟩ | ⟨j, h⟩
    · exact le_of_eq h
    · rcases h with h | h
      · rw [h]; linarith [(hfx j).1]
      · rw [h]; linarith [(hfx j).2]
    · rcases h with h | h
      · rw [h]; linarith [(hfg j).1]
      · rw [h]; linarith [(hfg j).2]

/-- Witness for primal_infeasibility_characterization: at a concrete
feasible one-variable, one-constraint instance the infeasibility is
nonnegative. -/
theorem primal_infeasibility_characterization_witness :
    (0 : ℚ) ≤ primalInfeasibility (fun _ : Fin 1 => 1) (fun _ => 0) (fun _ => 2)
      (fun _ : Fin 1 => 1) (fun _ => 0) (fun _ => 3) :=
  (primal_infeasibility_characterization (fun _ : Fin 1 => 1) (fun _ => 0) (fun _ => 2)
    (fun _ : Fin 1 => 1) (fun _ => 0) (fun _ => 3)).1

/- Regularizer (Sqpmethod::getRegularization and Sqpmethod::regularize,
sqpmethod.cpp lines 709-744).  The sparse column-compressed Hessian is
modelled densely as a function Fin n → Fin n → ℚ; in the solver the
sparsity pattern always contains the full diagonal (H_sparsity +
Sparsity::diag(nx_), line 126), and absent off-diagonal entries are zeros,
which contribute nothing to either the bound or the shift. -/

/-- Per-column Gershgorin accumulation of Sqpmethod::getRegularization
(lines 716-724): mineig starts at 0 and, for every entry of column cc,
adds the diagonal entry and subtracts the absolute value of each
off-diagonal entry. -/
def colBound {n : ℕ} (H : Fin n → Fin n → ℚ) (cc : Fin n) : ℚ :=
  ∑ rr, (if rr = cc then H rr cc else -|H rr cc|)

/-- Sqpmethod::getRegularization (lines 709-728): reg_param starts at 0,
is folded with fmin over the per-column bounds, and the negation is
returned. -/
def getRegularization {n : ℕ} (H : Fin n → Fin n → ℚ) : ℚ :=
  -((List.finRange n).foldl (fun rp cc => min rp (colBound H cc)) 0)

/-- Sqpmethod::regularize (lines 730-744): add reg to every diagonal
entry, leaving off-diagonal entries unchanged. -/
def regularize {n : ℕ} (H : Fin n → Fin n → ℚ) (reg : ℚ) : Fin n → Fin n → ℚ :=
  fun rr cc => if rr = cc then H rr cc + reg else H rr cc

/-- Gershgorin row bound of row i, in the spec formulation:
H[i,i] - sum over j different from i of abs(H[i,j]). -/
def rowBound {n : ℕ} (H : Fin n → Fin n → ℚ) (i : Fin n) : ℚ :=
  H i i - ∑ j ∈ Finset.univ.erase i, |H i j|

lemma minAux_le_init {ι : Type} (f : ι → ℚ) (l : List ι) (init : ℚ) :
    l.foldl (fun a j => min a (f j)) init ≤ init := by
  induction l generalizing init with
  | nil => exact le_refl init
  | cons a l ih =>
    simp only [List.foldl_cons]
    exact le_trans (ih _) (min_le_left init (f a))

lemma minAux_le_of_mem {ι : Type} (f : ι → ℚ) (l : List ι) (init : ℚ)
    (j : ι) (hj : j ∈ l) :
    l.foldl (fun a j => min a (f j)) init ≤ f j := by
  induction l generalizing init with
  | nil => cases hj
  | cons a l ih =>
    simp only [List.foldl_cons]
    rcases List.mem_cons.mp hj with h | h
    · subst h
      exact le_trans (minAux_le_init f l _) (min_le_right init (f j))
    · exact ih _ h

lemma colBound_eq_colform {n : ℕ} (H : Fin n → Fin n → ℚ) (cc : Fin n) :
    colBound H cc = H cc cc - ∑ rr ∈ Finset.univ.erase cc, |H rr cc| := by
  unfold colBound
  rw [← Finset.add_sum_erase Finset.univ
    (fun rr => if rr = cc then H rr cc else -|H rr cc|) (Finset.mem_univ cc)]
  rw [if_pos rfl]
  have h2 : ∑ rr ∈ Finset.univ.erase cc, (if rr = cc then H rr cc else -|H rr cc|)
      = ∑ rr ∈ Finset.univ.erase cc, -|H rr cc| := by
    refine Finset.sum_congr rfl ?_
    intro rr hrr
    rw [if_neg (Finset.ne_of_mem_erase hrr)]
  rw [h2, Finset.sum_neg_distrib, ← sub_eq_add_neg]

lemma colBound_eq_rowBound {n : ℕ} (H : Fin n → Fin n → ℚ)
    (hsym : ∀ i j, H i j = H j i) (i : Fin n) : colBound H i = rowBound H i := by
  rw [colBound_eq_colform, rowBound]
  have h : ∑ rr ∈ Finset.univ.erase i, |H rr i| = ∑ j ∈ Finset.univ.erase i, |H i j| := by
    refine Finset.sum_congr rfl ?_
    intro rr _
    rw [hsym rr i]
  rw [h]

lemma getRegularization_bound {n : ℕ} (H : Fin n → Fin n → ℚ) (i : Fin n) :
    -getRegularization H ≤ colBound H i := by
  unfold getRegularization
  rw [neg_neg]
  exact minAux_le_of_mem (colBound H) (List.finRange n) 0 i (List.mem_finRange i)

lemma rowBound_regularize {n : ℕ} (H : Fin n → Fin n → ℚ) (reg : ℚ) (i : Fin n) :
    rowBound (regularize H reg) i = rowBound H i + reg := by
  unfold rowBound regularize
  rw [if_pos rfl]
  have h : ∑ j ∈ Finset.univ.erase i, |if i = j then H i j + reg else H i j|
      = ∑ j ∈ Finset.univ.erase i, |H i j| := by
    refine Finset.sum_congr rfl ?_
    intro j hj
    rw [if_neg (Ne.symm (Finset.ne_of_mem_erase hj))]
  rw [h]
  ring

/-- Claim C7: for every symmetric matrix, after applying the regularizing
diagonal shift computed by getRegularization (applied only when positive,
as in Sqpmethod::eval_h lines 772-777), every Gershgorin row bound of the
resulting matrix is nonnegative. -/
theorem regularized_gershgorin_nonneg {n : ℕ} (H : Fin n → Fin n → ℚ)
    (hsym : ∀ i j, H i j = H j i) (i : Fin n) :
    0 ≤ rowBound
      (if 0 < getRegularization H then regularize H (getRegularization H) else H) i := by
  have hb : -getRegularization H ≤ rowBound H i := by
    rw [← colBound_eq_rowBound H hsym i]
    exact getRegularization_bound H i
  by_cases hreg : 0 < getRegularization H
  · rw [if_pos hreg, rowBound_regularize]
    linarith
  · rw [if_neg hreg]
    have hnn : 0 ≤ getRegularization H := by
      unfold getRegularization
      have := minAux_le_init (colBound H) (List.finRange n) 0
      linarith
    have hz : getRegularization H = 0 := le_antisymm (not_lt.mp hreg) hnn
    rw [hz] at hb
    linarith

/-- Witness for regularized_gershgorin_nonneg: the symmetric matrix with
diagonal -1 and off-diagonal 2 needs a positive shift, and after the shift
its first Gershgorin row bound is nonnegative. -/
theorem regularized_gershgorin_nonneg_witness :
    0 ≤ rowBound
      (if 0 < getRegularization (fun i j : Fin 2 => if i = j then (-1 : ℚ) else 2) then
        regularize (fun i j : Fin 2 => if i = j then (-1 : ℚ) else 2)
          (getRegularization (fun i j : Fin 2 => if i = j then (-1 : ℚ) else 2))
      else fun i j : Fin 2 => if i = j then (-1 : ℚ) else 2) 0 :=
  regularized_gershgorin_nonneg (fun i j : Fin 2 => if i = j then (-1 : ℚ) else 2)
    (by
      intro i j
      show (if i = j then (-1 : ℚ) else 2) = if j = i then (-1 : ℚ) else 2
      by_cases h : i = j
      · rw [if_pos h, if_pos h.symm]
      · rw [if_neg h, if_neg (Ne.symm h)]) 0

/- BFGS Hessian update engine (the bfgs_ Function built in Sqpmethod::init,
sqpmethod.cpp lines 179-212, evaluated at lines 575-586).  The symbolic
expressions are evaluated in IEEE doubles at run time; a division with a
zero denominator then yields a non-finite value that contaminates the
updated Hessian.  That numeric fault is modelled as Option.none, produced
by divStrict and propagated by bind. -/

/-- Dot product, casadi inner_prod as used in the bfgs_ expression graph
(lines 192-198). -/
def inner_prod {n : ℕ} (a b : Fin n → ℚ) : ℚ := ∑ i, a i * b i

/-- Matrix-vector product, casadi mul(Bk, sk) at line 189. -/
def matvec {n : ℕ} (B : Fin n → Fin n → ℚ) (v : Fin n → ℚ) : Fin n → ℚ :=
  fun i => ∑ j, B i j * v j

/-- Division that faults (returns none) on a zero denominator, modelling
the non-finite IEEE result of the source's division at that point. -/
def divStrict (a b : ℚ) : Option ℚ := if b = 0 then none else some (a / b)

/-- The damped BFGS update of sqpmethod.cpp lines 187-199:
sk = x - x_old, yk = gLag - gLag_old, qk = Bk*sk, Powell damping via
omega (0.2 and 0.8 are 1/5 and 4/5), theta = 1/(sk.yk), phi = 1/(qk.sk),
Bk_new = Bk + theta*yk*yk^T - phi*qk*qk^T.  The source has no special
case for sk = 0; each division is modelled with divStrict. -/
def bfgs {n : ℕ} (Bk : Fin n → Fin n → ℚ) (x xOld gLag gLagOld : Fin n → ℚ) :
    Option (Fin n → Fin n → ℚ) :=
  let sk : Fin n → ℚ := fun i => x i - xOld i
  let yk0 : Fin n → ℚ := fun i => gLag i - gLagOld i
  let qk : Fin n → ℚ := matvec Bk sk
  let skBksk := inner_prod sk qk
  (if inner_prod yk0 sk < 1 / 5 * inner_prod sk qk then
      divStrict (4 / 5 * skBksk) (skBksk - inner_prod sk yk0)
    else some 1).bind fun omega =>
  let yk : Fin n → ℚ := fun i => omega * yk0 i + (1 - omega) * qk i
  (divStrict 1 (inner_prod sk yk)).bind fun theta =>
  (divStrict 1 (inner_prod qk sk)).bind fun phi =>
  some (fun i j => Bk i j + theta * yk i * yk j - phi * qk i * qk j)

/-- Counterexample to claim C2 as stated: at a concrete no-movement input
(x = x_old, one variable, Bk = 1) the BFGS update is not skipped with the
Hessian left unchanged; the zero denominators produce a propagating
numeric fault instead. -/
theorem bfgs_no_skip_cex :
    bfgs (fun _ _ : Fin 1 => (1 : ℚ)) (fun _ => 0) (fun _ => 0) (fun _ => 1) (fun _ => 0) =
        none ∧
      bfgs (fun _ _ : Fin 1 => (1 : ℚ)) (fun _ => 0) (fun _ => 0) (fun _ => 1) (fun _ => 0) ≠
        some (fun _ _ => (1 : ℚ)) := by
  have h : bfgs (fun _ _ : Fin 1 => (1 : ℚ)) (fun _ => 0) (fun _ => 0) (fun _ => 1)
      (fun _ => 0) = none := by
    simp [bfgs, matvec, inner_prod, divStrict]
  rw [h]
  exact ⟨rfl, by simp⟩

/-- Claim C2 amended: the BFGS update function has no special case for
sk = x - x_old = 0; at any no-movement input the denominators of theta and
phi are zero and the update evaluates to a numeric fault, rather than
leaving the Hessian approximation unchanged. -/
theorem bfgs_zero_step_faults {n : ℕ} (Bk : Fin n → Fin n → ℚ)
    (x gLag gLagOld : Fin n → ℚ) : bfgs Bk x x gLag gLagOld = none := by
  simp [bfgs, matvec, inner_prod, divStrict]

/- Merit-function line search (sqpmethod.cpp lines 460-531).  The
Evaluator Port calls eval_f/eval_g of the trial loop (lines 478-488) are
modelled by an oracle indexed by the value of ls_iter at the time of the
call: none models a thrown CasadiException (caught and silently ignored at
line 482), some (f, g) models a successful evaluation. -/

/-- Line-search configuration read in Sqpmethod::init (lines 104-114):
max_iter_ls_, beta_, c1_, plus the per-iteration values sigma_ and L1dir
that are fixed before the trial loop starts (lines 443-452). -/
structure LSParams where
  max_iter_ls : ℕ
  beta : ℚ
  c1 : ℚ
  sigma : ℚ
  L1dir : ℚ

/-- The enabled line-search loop of sqpmethod.cpp lines 475-513, with
explicit fuel standing for the unbounded while(true).  Per pass: evaluate
the trial point x_ + t*dx_ through the oracle; on an evaluation failure
increment ls_iter, shrink t by beta and continue (lines 482-488); on
success increment ls_iter, accept when the candidate merit passes the
non-monotone Armijo test (line 498), otherwise stop with the failure flag
when ls_iter == max_iter_ls_ (line 505), otherwise shrink t and continue.
The result is (t, ls_iter, ls_success); none means the loop was still
running when the fuel ran out. -/
def lsLoop {nx ng : ℕ} (p : LSParams) (oracle : ℕ → Option (ℚ × (Fin ng → ℚ)))
    (x dx lbx ubx : Fin nx → ℚ) (lbg ubg : Fin ng → ℚ) (meritMem : List ℚ) :
    ℕ → ℚ → ℕ → Option (ℚ × ℕ × Bool)
  | 0, _, _ => none
  | fuel + 1, t, lsIter =>
    match oracle lsIter with
    | none => lsLoop p oracle x dx lbx ubx lbg ubg meritMem fuel (p.beta * t) (lsIter + 1)
    | some fg =>
      let xCand : Fin nx → ℚ := fun i => x i + t * dx i
      let l1MeritCand := fg.1 + p.sigma * primalInfeasibility xCand lbx ubx fg.2 lbg ubg
      if l1MeritCand ≤ listMax meritMem + t * p.c1 * p.L1dir then some (t, lsIter + 1, true)
      else if lsIter + 1 = p.max_iter_ls then some (t, lsIter + 1, false)
      else lsLoop p oracle x dx lbx ubx lbg ubg meritMem fuel (p.beta * t) (lsIter + 1)

/-- Claim C1: evidence of the divergence.  With max_iter_ls = 1, an
evaluation failure at the first trial and rejected (but successful)
evaluations afterwards, the loop is still running after six trials: the
failure path skips the cap check and the later equality test
ls_iter == max_iter_ls can no longer fire once ls_iter has overshot the
cap, so the search does not stop after max_iter_ls trials as the claim
states. -/
theorem ls_eval_failure_overruns_cap :
    lsLoop ⟨1, 1 / 2, 1 / 10000, 1, 0⟩
      (fun k => if k = 0 then none else some (100, fun _ : Fin 0 => 0))
      (fun _ : Fin 1 => 0) (fun _ => 1) (fun _ => -10) (fun _ => 10)
      (fun _ => 0) (fun _ => 0) [0] 6 1 0 = none := by
  norm_num [lsLoop, primalInfeasibility, violFold, listMax,
    List.finRange_succ, List.finRange_zero]

/-- Result of one globalization phase of the outer loop: the updated
primal point, the updated multipliers, the accepted step size, the trial
count and the success flag. -/
structure GlobResult (nx ng : ℕ) where
  x : Fin nx → ℚ
  mu : Fin ng → ℚ
  mu_x : Fin nx → ℚ
  t : ℚ
  ls_iter : ℕ
  ls_success : Bool

/-- The globalization phase of sqpmethod.cpp lines 460-531: t starts at
1.0 with ls_iter = 0 and ls_success = true (lines 461-468); when
max_iter_ls_ > 0 the line-search loop runs and the accepted trial point
and convex dual combination are taken (lines 472-521); when
max_iter_ls_ == 0 the search is skipped, x += dx and the duals are copied
from the QP duals (lines 523-531). -/
def globalize {nx ng : ℕ} (p : LSParams) (oracle : ℕ → Option (ℚ × (Fin ng → ℚ)))
    (x dx : Fin nx → ℚ) (mu : Fin ng → ℚ) (mu_x : Fin nx → ℚ)
    (dualX : Fin nx → ℚ) (dualA : Fin ng → ℚ)
    (lbx ubx : Fin nx → ℚ) (lbg ubg : Fin ng → ℚ)
    (meritMem : List ℚ) (fuel : ℕ) : Option (GlobResult nx ng) :=
  if 0 < p.max_iter_ls then
    (lsLoop p oracle x dx lbx ubx lbg ubg meritMem fuel 1 0).bind fun r =>
      some ⟨fun i => x i + r.1 * dx i,
        fun i => r.1 * dualA i + (1 - r.1) * mu i,
        fun i => r.1 * dualX i + (1 - r.1) * mu_x i,
        r.1, r.2.1, r.2.2⟩
  else
    some ⟨fun i => x i + dx i, dualA, dualX, 1, 0, true⟩

/-- Claim C9: when the configured maximum number of line-search
backtracks is zero, the search is skipped in every iteration: the full QP
step x + 1*dx is taken, the duals are set directly to the QP dual
solutions, and the success flag stays set. -/
theorem linesearch_disabled_full_step {nx ng : ℕ} (beta c1 sigma L1dir : ℚ)
    (oracle : ℕ → Option (ℚ × (Fin ng → ℚ))) (x dx : Fin nx → ℚ)
    (mu : Fin ng → ℚ) (mu_x : Fin nx → ℚ) (dualX : Fin nx → ℚ) (dualA : Fin ng → ℚ)
    (lbx ubx : Fin nx → ℚ) (lbg ubg : Fin ng → ℚ) (meritMem : List ℚ) (fuel : ℕ) :
    globalize ⟨0, beta, c1, sigma, L1dir⟩ oracle x dx mu mu_x dualX dualA
        lbx ubx lbg ubg meritMem fuel =
      some ⟨fun i => x i + 1 * dx i, dualA, dualX, 1, 0, true⟩ := by
  simp [globalize]

/-- Counterexample to claim C10 as stated: with the configurable merit
memory size set to 0, the value pushed before the line-search loop is
immediately evicted again, so the history is empty when the acceptance
test takes its maximum (line 497 then dereferences the end iterator of an
empty deque). -/
theorem merit_history_empty_cex : pushMerit [] (5 : ℚ) 0 = [] := by
  simp [pushMerit]

/-- Claim C10 amended: provided merit_memsize is at least 1, the history
is never empty after the push that precedes the line-search loop, so the
maximum taken by the acceptance test is over a non-empty history on every
trial of every iteration. -/
theorem merit_push_nonempty (mem : List ℚ) (v : ℚ) (memsize : ℕ)
    (h : 1 ≤ memsize) : pushMerit mem v memsize ≠ [] := by
  unfold pushMerit
  by_cases hc : memsize < (mem ++ [v]).length
  · rw [if_pos hc]
    cases mem with
    | nil => simp at hc; omega
    | cons a l => simp
  · rw [if_neg hc]
    simp

/-- Witness for merit_push_nonempty: capacity 1, empty prior history. -/
theorem merit_push_nonempty_witness : pushMerit [] (5 : ℚ) 1 ≠ [] :=
  merit_push_nonempty [] 5 1 (le_refl 1)

/- Control-flow trace of Sqpmethod::evalD (sqpmethod.cpp lines 316-607)
at the granularity needed for the output-buffer writes.  Inside the main
while(true) loop, the only writes to the output buffers
output(NLPSOL_F/X/LAM_G/LAM_X/G) are the callback-preparation writes at
lines 363-367, executed exactly when a callback function is installed
(!fcallback_.isNull(), line 360, with non-empty output buffers); the rest
of each pass (convergence checks lines 391-421 with their break points,
and the iteration body lines 423-596) mutates only internal state.  The
final save at lines 603-607 writes the outputs after the loop exits. -/

/-- Events of one evalD run, in source order. -/
inductive Ev where
  | printIter
  | statsGather
  | outWrite
  | cbCall
  | convChecks
  | iterBody
deriving DecidableEq

/-- Events of one full pass of the main loop (lines 316-596): iteration
printing, statistics gathering, then - only when a callback is installed -
the five output-buffer writes of lines 363-367 followed by the callback
call, then the abort/convergence checks and the iteration body. -/
def passEvents (cb : Bool) : List Ev :=
  [Ev.printIter, Ev.statsGather] ++ (if cb then [Ev.outWrite, Ev.cbCall] else []) ++
    [Ev.convChecks, Ev.iterBody]

/-- Events of the final, terminating pass: identical to a full pass up to
the check that breaks out of the loop. -/
def finalPassEvents (cb : Bool) : List Ev :=
  [Ev.printIter, Ev.statsGather] ++ (if cb then [Ev.outWrite, Ev.cbCall] else []) ++
    [Ev.convChecks]

/-- Events emitted while the main loop is iterating: k completed passes
followed by the pass on which the loop terminates. -/
def loopEvents (cb : Bool) (k : ℕ) : List Ev :=
  (List.replicate k (passEvents cb)).flatten ++ finalPassEvents cb

/-- Events of a whole evalD call: the loop, then the save of the results
to the output buffers at lines 603-607. -/
def evalDEvents (cb : Bool) (k : ℕ) : List Ev := loopEvents cb k ++ [Ev.outWrite]

/-- Counterexample to claim C4 as stated: when a user callback is
installed, an output-buffer write occurs while the main loop is still
iterating (the callback-preparation writes of lines 363-367), already on
the very first pass. -/
theorem callback_outwrite_in_loop_cex : Ev.outWrite ∈ loopEvents true 0 := by
  simp [loopEvents, finalPassEvents]

/-- Claim C4 amended: when no user callback is installed, no write to the
output buffers occurs while the main loop is iterating, for any number of
passes; the outputs are written exactly once, after the loop exits.  When
a callback is installed the buffers are additionally written on every
pass to prepare the callback arguments. -/
theorem outputs_written_only_after_loop (k : ℕ) :
    Ev.outWrite ∉ loopEvents false k ∧
      evalDEvents false k = loopEvents false k ++ [Ev.outWrite] := by
  refine ⟨?_, rfl⟩
  intro hmem
  rw [loopEvents, List.mem_append] at hmem
  rcases hmem with h | h
  · rcases List.mem_flatten.mp h with ⟨l, hl, hx⟩
    rcases List.mem_replicate.mp hl with ⟨-, rfl⟩
    simp [passEvents] at hx
  · simp [finalPassEvents] at h

end Sqpmethod
